import Mathlib

/-!
Verification development for the aspector netlist-to-graph converter.

The source is a Python repository converting SPICE-like `.scs` netlists into a
typed bipartite graph (components and nets) and projecting that graph into an
exchange JSON format.  Two near-duplicate parser variants exist:
`src/conversion_scripts/net_to_graph.py` (the "conv" variant) and
`src/web_app/backend/net_to_graph.py` (the "web" variant).  This file gives a
shallow embedding of both variants plus the exchange projection
(`src/web_app/backend/graph_to_json.py`) and the upload service dispatch
(`src/web_app/backend/server.py`), and proves or refutes the frozen claims.

Modeling conventions:
- Python floats are modeled as rationals (exact arithmetic); every numeric
  value arising in the claims is produced exactly by the source expressions.
- Python regular expressions used by the source are small and are implemented
  here as explicit character scanners with identical semantics.
- Python dicts are modeled as association lists with in-place-overwrite
  insertion (`dinsert`), which preserves both insertion order and
  last-write-wins lookup, exactly like CPython dicts.
-/

namespace Aspector

/-! ## Python string primitives -/

/-- Python `str.strip` whitespace set (ASCII subset; inputs are ASCII). -/
def pySpace (c : Char) : Bool :=
  c = ' ' || c = '\t' || c = '\n' || c = '\r' || c = '\x0b' || c = '\x0c'

/-- Strip trailing whitespace, then leading whitespace (same result as
Python `str.strip`, which strips both ends). -/
def stripChars (l : List Char) : List Char :=
  ((l.reverse.dropWhile pySpace).reverse).dropWhile pySpace

/-- Python `str.strip`. -/
def pyStrip (s : String) : String := ⟨stripChars s.data⟩

/-- Auxiliary for whitespace tokenization. -/
def wsplitAux : List Char → List Char → List String
  | [], acc => if acc.isEmpty then [] else [⟨acc.reverse⟩]
  | c :: rest, acc =>
    if pySpace c then
      if acc.isEmpty then wsplitAux rest []
      else (⟨acc.reverse⟩ : String) :: wsplitAux rest []
    else wsplitAux rest (c :: acc)

/-- Python `str.split()` with no argument: split on whitespace runs,
dropping empty tokens. -/
def wsplit (s : String) : List String := wsplitAux s.data []

/-- List-level prefix test (Python `str.startswith`). -/
def lstarts (p s : String) : Bool := p.data.isPrefixOf s.data

/-- List-level suffix test (Python `str.endswith`). -/
def lends (p s : String) : Bool := p.data.isSuffixOf s.data

/-- Substring containment on char lists (Python `in` for strings). -/
def subChars (p : List Char) : List Char → Bool
  | [] => p.isEmpty
  | c :: rest => p.isPrefixOf (c :: rest) || subChars p rest

/-- Python `pat in s` substring test. -/
def containsSub (p s : String) : Bool := subChars p.data s.data

/-- Python `str.lower` (ASCII). -/
def lowerStr (s : String) : String := ⟨s.data.map Char.toLower⟩

/-- Python `"sep".join` specialised to a single space. -/
def joinSpace : List String → String
  | [] => ""
  | [s] => s
  | s :: rest => s ++ " " ++ joinSpace rest

/-- Concatenation of the lists produced for each element (Python list
building across a loop). -/
def catMap (f : α → List β) : List α → List β
  | [] => []
  | a :: rest => f a ++ catMap f rest

/-! ## Association lists modeling Python dicts -/

/-- First-match association lookup (Python dict lookup; keys are unique by
construction of `dinsert`). -/
def alook [DecidableEq κ] (k : κ) : List (κ × α) → Option α
  | [] => none
  | (k1, v) :: rest => if k1 = k then some v else alook k rest

/-- Python dict assignment `d[k] = v`: overwrite in place if the key exists
(keeping its position, like CPython), else append. -/
def dinsert [DecidableEq κ] (k : κ) (v : α) : List (κ × α) → List (κ × α)
  | [] => [(k, v)]
  | (k1, v1) :: rest =>
    if k1 = k then (k1, v) :: rest else (k1, v1) :: dinsert k v rest

/-- Build a dict from a pair list, later entries overwriting earlier ones
(Python `dict(pairs)`). -/
def dictOf [DecidableEq κ] (l : List (κ × α)) : List (κ × α) :=
  l.foldl (fun m kv => dinsert kv.1 kv.2 m) []

/-- Index of the last occurrence of an element (the value a Python dict
comprehension `{x: i for i, x in enumerate(l)}` stores for key `x`). -/
def lastIdx? (n : String) : List String → Option Nat
  | [] => none
  | x :: rest =>
    match lastIdx? n rest with
    | some v => some (v + 1)
    | none => if x = n then some 0 else none

/-- Pair every element with its index, starting at `k`. -/
def enumI (k : Nat) : List α → List (Nat × α)
  | [] => []
  | x :: rest => (k, x) :: enumI (k + 1) rest

/-! ## Exact rationals that reduce inside the kernel

Python floats are modeled exactly.  Mathlib `ℚ` arithmetic is implemented
with `Nat.gcd`, which is defined by well-founded recursion and does not
reduce definitionally, so closed evaluations could not be settled by
`decide`.  `PyQ` is an exact rational (integer numerator, natural
denominator) normalized through a fuel-based Euclid gcd; all of its
operations reduce inside the kernel, and every operation normalizes, so
structural equality coincides with equality of values. -/

/-- Euclid gcd with explicit fuel (the fuel only bounds the recursion; with
fuel `b + 1` it never runs out). -/
def gcdFuel : ℕ → ℕ → ℕ → ℕ
  | 0, a, _ => a
  | _ + 1, a, 0 => a
  | f + 1, a, b => gcdFuel f b (a % b)

/-- Greatest common divisor, kernel-reducible. -/
def ngcd (a b : ℕ) : ℕ := gcdFuel (b + 1) a b

/-- Exact rational value: numerator and (positive) denominator. -/
structure PyQ where
  n : ℤ
  d : ℕ
deriving DecidableEq

/-- Normalize by the gcd of numerator and denominator. -/
def PyQ.nf (x : PyQ) : PyQ :=
  if x.d = 0 then ⟨0, 1⟩
  else
    let g := ngcd x.n.natAbs x.d
    ⟨if x.n < 0 then -((x.n.natAbs / g : ℕ) : ℤ) else ((x.n.natAbs / g : ℕ) : ℤ),
     x.d / g⟩

/-- Addition (normalizing). -/
def PyQ.add (a b : PyQ) : PyQ := PyQ.nf ⟨a.n * b.d + b.n * a.d, a.d * b.d⟩

/-- Multiplication (normalizing). -/
def PyQ.mul (a b : PyQ) : PyQ := PyQ.nf ⟨a.n * b.n, a.d * b.d⟩

/-- Negation. -/
def PyQ.neg (a : PyQ) : PyQ := ⟨-a.n, a.d⟩

/-- Division (normalizing); division by zero yields zero (never exercised
by the source call sites). -/
def PyQ.div (a b : PyQ) : PyQ :=
  if b.n = 0 then ⟨0, 1⟩
  else PyQ.nf ⟨if b.n < 0 then -(a.n * b.d) else a.n * b.d, a.d * b.n.natAbs⟩

instance (m : ℕ) : OfNat PyQ m := ⟨⟨m, 1⟩⟩
instance : NatCast PyQ := ⟨fun m => ⟨m, 1⟩⟩
instance : Add PyQ := ⟨PyQ.add⟩
instance : Mul PyQ := ⟨PyQ.mul⟩
instance : Neg PyQ := ⟨PyQ.neg⟩
instance : Div PyQ := ⟨PyQ.div⟩

/-- Power by a natural. -/
def PyQ.pow (a : PyQ) : ℕ → PyQ
  | 0 => 1
  | k + 1 => (PyQ.pow a k).mul a

instance : Pow PyQ ℕ := ⟨PyQ.pow⟩

/-- Python truthiness of a float: `0.0` is falsy. -/
def PyQ.isZero (a : PyQ) : Bool := a.n = 0

/-- Python `val > 0` (denominators are positive at every source call site). -/
def PyQ.isPos (a : PyQ) : Bool := 0 < a.n

/-- Python `int(float)`: truncation toward zero. -/
def PyQ.trunc (a : PyQ) : ℤ :=
  if a.n < 0 then -((a.n.natAbs / a.d : ℕ) : ℤ) else ((a.n.natAbs / a.d : ℕ) : ℤ)

/-! ## Numeric value parsing (`NetlistToGraph._parse_value`)

The conv variant uses the pattern `([-+]?[\d\.]+)([a-zA-Z]*)`, the web
variant `([-+]?[\d\.]+(?:[eE][-+]?\d+)?)([a-zA-Z]*)`, both anchored at the
start of the token (`re.match`).  Both feed the numeric group to Python
`float`, returning `0.0` on `ValueError`, and apply an engineering suffix
only when the captured letter run is exactly one of the table keys. -/

/-- Engineering-suffix table from `NetlistToGraph.__init__`. -/
def suffixTable : List (Char × PyQ) :=
  [('f', 1 / 10 ^ 15), ('p', 1 / 10 ^ 12), ('n', 1 / 10 ^ 9),
   ('u', 1 / 10 ^ 6), ('m', 1 / 10 ^ 3),
   ('k', 10 ^ 3), ('M', 10 ^ 6), ('G', 10 ^ 9), ('T', 10 ^ 12)]

/-- Numeric value of a digit list (most significant first). -/
def natOfDigits (l : List Char) : ℕ :=
  l.foldl (fun n c => n * 10 + (c.toNat - 48)) 0

/-- Python `float` applied to a string matching `[\d\.]+`: at most one dot
and at least one digit, else a `ValueError` (modeled as `none`). -/
def pyFloatRun (run : List Char) : Option PyQ :=
  if run.count '.' = 0 then
    if run.isEmpty then none else some ((natOfDigits run : ℕ) : PyQ)
  else if run.count '.' = 1 && run.any Char.isDigit then
    let ip := run.takeWhile (fun c => c != '.')
    let fp := (run.dropWhile (fun c => c != '.')).drop 1
    some (((natOfDigits ip : ℕ) : PyQ) + ((natOfDigits fp : ℕ) : PyQ) / 10 ^ fp.length)
  else none

/-- Ten to an integer power. -/
def pow10 (e : ℤ) : PyQ :=
  if 0 ≤ e then (10 : PyQ) ^ e.toNat else 1 / (10 : PyQ) ^ (-e).toNat

/-- Try to consume an exponent `[eE][-+]?\d+` (web variant only); returns the
exponent and the remaining characters, or `none` with the input unchanged. -/
def tryExp : List Char → Option ℤ × List Char
  | 'e' :: rest => tryExpSign 'e' rest
  | 'E' :: rest => tryExpSign 'E' rest
  | l => (none, l)
where
  /-- Consume the optional sign and mandatory digits after `e`/`E`. -/
  tryExpSign (e0 : Char) (rest : List Char) : Option ℤ × List Char :=
    let (neg, r2) :=
      match rest with
      | '+' :: r => (false, r)
      | '-' :: r => (true, r)
      | r => (false, r)
    let ds := r2.takeWhile Char.isDigit
    if ds.isEmpty then (none, e0 :: rest)
    else
      let v : ℤ := (natOfDigits ds : ℤ)
      (some (if neg then -v else v), r2.drop ds.length)

/-- Core of `_parse_value` after the scope lookup: the regex match plus
`float` conversion and suffix application.  `withExp` selects the web
variant (exponent group present). -/
def numParse (withExp : Bool) (l : List Char) : PyQ :=
  let (sgn, rest) :=
    match l with
    | '+' :: r => ((1 : PyQ), r)
    | '-' :: r => ((-1 : PyQ), r)
    | r => ((1 : PyQ), r)
  let run := rest.takeWhile (fun c => c.isDigit || c = '.')
  if run.isEmpty then 0
  else
    let afterRun := rest.drop run.length
    let (expo, afterExp) := if withExp then tryExp afterRun else (none, afterRun)
    let sfx := afterExp.takeWhile Char.isAlpha
    match pyFloatRun run with
    | none => 0
    | some base =>
      let v := sgn * base * pow10 (expo.getD 0)
      match sfx with
      | [c] =>
        match alook c suffixTable with
        | some mult => v * mult
        | none => v
      | _ => v

/-- A value reaching `_parse_value`: either a string from the netlist text or
a number (the integer default `0`, or a float stored by the positional
fallback of the web variant). -/
inductive PVal where
  | s (v : String)
  | q (v : PyQ)
deriving DecidableEq

/-- `NetlistToGraph._parse_value(val_str, params)`.  A falsy argument (empty
string or the number 0) yields `0.0`; otherwise the stripped token is first
looked up in the (non-empty) parameter scope; otherwise it is parsed
numerically.  A numeric argument round-trips through `str`; for the
non-negative values the source ever stores, that round-trip is the
identity, which is how it is modeled here. -/
def parse_value (withExp : Bool) (scope : Option (List (String × PyQ))) : PVal → PyQ
  | .q v => v
  | .s v =>
    if v = "" then 0
    else
      let t := pyStrip v
      let hit :=
        match scope with
        | none => none
        | some ps => if ps.isEmpty then none else alook t ps
      match hit with
      | some w => w
      | none => numParse withExp t.data

/-- The conv variant of `_parse_value` (no exponent group). -/
def parse_valueC (scope : Option (List (String × PyQ))) (v : PVal) : PyQ :=
  parse_value false scope v

/-- The web variant of `_parse_value` (exponent group present). -/
def parse_valueW (scope : Option (List (String × PyQ))) (v : PVal) : PyQ :=
  parse_value true scope v

/-! ## Regex scanners used by `parse_file` and `_parse_component_line`

`re.findall(r'parameters\s+(.*)', content)` collects, for every occurrence
of the literal `parameters` followed by whitespace, the rest of that line.
`re.findall(r'(\w+)=([\w\.\+-e]+)', s)` collects `key=value` pairs; note
that inside the character class, `\+-e` is the range from `+` (code 43) to
`e` (code 101). -/

/-- Membership in `\w` (ASCII scope; the inputs are ASCII). -/
def wChar (c : Char) : Bool := c.isAlphanum || c = '_'

/-- Membership in the value class `[\w\.\+-e]`: `\w`, dot, or the character
range from `+` (43) to `e` (101) produced by `\+-e`. -/
def vChar (c : Char) : Bool :=
  c.isAlphanum || c = '_' || c = '.' || (43 ≤ c.toNat && c.toNat ≤ 101)

/-- One step of `re.findall(r'parameters\s+(.*)', content)`: fuel-bounded
left-to-right scan; on a match the captured group is the run after the
maximal whitespace, up to the end of the line, and scanning resumes after
it (matches cannot overlap). -/
def paramLineScan : ℕ → List Char → List (List Char)
  | 0, _ => []
  | _ + 1, [] => []
  | f + 1, c :: rest =>
    let l := c :: rest
    if ("parameters".data).isPrefixOf l then
      let after := l.drop 10
      let ws := after.takeWhile pySpace
      if ws.isEmpty then paramLineScan f rest
      else
        let tail0 := after.drop ws.length
        let captured := tail0.takeWhile (fun x => x != '\n')
        captured :: paramLineScan f (tail0.drop captured.length)
    else paramLineScan f rest

/-- `re.findall(r'parameters\s+(.*)', content)`. -/
def findParamLines (content : String) : List String :=
  (paramLineScan content.data.length content.data).map (fun l => (⟨l⟩ : String))

/-- Fuel-bounded scan for `re.findall(r'(\w+)=([\w\.\+-e]+)', s)`.  At each
position: a maximal non-empty `\w` run, a literal `=`, then a maximal
non-empty value run; on failure the scan advances one character.  Since
`=` is in neither class as a `\w` character, maximal munch is exact. -/
def kvScan : ℕ → List Char → List (String × String)
  | 0, _ => []
  | _ + 1, [] => []
  | f + 1, c :: rest =>
    let l := c :: rest
    let w := l.takeWhile wChar
    if w.isEmpty then kvScan f rest
    else
      match l.drop w.length with
      | '=' :: r2 =>
        let v := r2.takeWhile vChar
        if v.isEmpty then kvScan f rest
        else ((⟨w⟩ : String), (⟨v⟩ : String)) :: kvScan f (r2.drop v.length)
      | _ => kvScan f rest

/-- `re.findall(r'(\w+)=([\w\.\+-e]+)', s)`. -/
def kvFindall (s : String) : List (String × String) := kvScan s.data.length s.data

/-- `re.search(r'dc=(\w+)', s)`: first occurrence of literal `dc=` followed
by a non-empty `\w` run; returns the run. -/
def dcScan : ℕ → List Char → Option String
  | 0, _ => none
  | _ + 1, [] => none
  | f + 1, c :: rest =>
    let l := c :: rest
    if ("dc=".data).isPrefixOf l then
      let w := (l.drop 3).takeWhile wChar
      if w.isEmpty then dcScan f rest else some (⟨w⟩ : String)
    else dcScan f rest

/-- `re.search(r'dc=(\w+)', s)` over a string. -/
def dcSearch (s : String) : Option String := dcScan s.data.length s.data

/-! ## Global parameter scope (`parse_file`, parameter extraction)

For every captured `parameters` line, every `key=value` pair is stored
with `params[k] = self._parse_value(v)` — the call does NOT pass the scope
built so far, so values are parsed purely numerically. -/

/-- All `key=value` pairs of all `parameters` statements, in textual
order. -/
def paramPairs (content : String) : List (String × String) :=
  catMap kvFindall (findParamLines content)

/-- The global parameter scope of `parse_file` (both variants call
`_parse_value(v)` here without the `params` argument; `withExp`
distinguishes the two variants' numeric grammars). -/
def extractParams (withExp : Bool) (content : String) : List (String × PyQ) :=
  (paramPairs content).foldl
    (fun m kv => dinsert kv.1 (parse_value withExp none (.s kv.2)) m) []

/-! ## Net classification (`_build_hetero_data`, net features)

`self.net_patterns['supply'].match(n)` is a case-sensitive match anchored
at the start of the name (a prefix test, not an exact match) against
`vdd!|gnd!|0`; `bias` and `signal` use case-insensitive `search`
(substring) against `vbias|ibias` and `vin|vout`. -/

/-- Supply test: `re.compile(r'vdd!|gnd!|0').match(name)`. -/
def supplyMatch (n : String) : Bool :=
  lstarts "vdd!" n || lstarts "gnd!" n || lstarts "0" n

/-- Bias test: `re.compile(r'vbias|ibias', re.IGNORECASE).search(name)`. -/
def biasSearch (n : String) : Bool :=
  containsSub "vbias" (lowerStr n) || containsSub "ibias" (lowerStr n)

/-- Signal test: `re.compile(r'vin|vout', re.IGNORECASE).search(name)`. -/
def signalSearch (n : String) : Bool :=
  containsSub "vin" (lowerStr n) || containsSub "vout" (lowerStr n)

/-- Net type code assigned in `_build_hetero_data`: 0 supply, 1 bias,
2 signal, 3 internal, evaluated in that priority order. -/
def netTypeCode (n : String) : ℕ :=
  if supplyMatch n then 0
  else if biasSearch n then 1
  else if signalSearch n then 2
  else 3

/-- Classification that the specification text describes for the supply
tier: an exact, case-insensitive match against the supply literals
(`VDD!` → supply).  Used only to contrast with `netTypeCode`, which is
what the code implements. -/
def netTypeCodeSpec (n : String) : ℕ :=
  if lowerStr n = "vdd!" || lowerStr n = "gnd!" || lowerStr n = "0" then 0
  else if biasSearch n then 1
  else if signalSearch n then 2
  else 3

/-! ## Component statement parsing (`_parse_component_line`) -/

/-- The primitive type keywords of `comp_type_map`, in declaration order. -/
def compTypeKeys : List String :=
  ["nfet", "pfet", "resistor", "capacitor", "vsource", "isource", "vcvs"]

/-- Numeric component type codes (`comp_type_map`). -/
def compTypeMap : List (String × ℕ) :=
  [("nfet", 0), ("pfet", 1), ("resistor", 2), ("capacitor", 3),
   ("vsource", 4), ("isource", 5), ("vcvs", 6)]

/-- Terminal-role code table (`term_map`). -/
def termMap : List (String × ℕ) :=
  [("D", 0), ("G", 1), ("S", 2), ("B", 3), ("P", 4), ("N", 5),
   ("pos", 6), ("neg", 7), ("ctrl_pos", 8), ("ctrl_neg", 9)]

/-- First token (with its index) that is a known primitive type keyword. -/
def findTypeIdx (i : ℕ) : List String → Option (ℕ × String)
  | [] => none
  | t :: rest =>
    if compTypeKeys.contains t then some (i, t) else findTypeIdx (i + 1) rest

/-- Positional terminal-role names per type (`t_names`). -/
def termNames (t : String) : List String :=
  if t = "nfet" || t = "pfet" then ["D", "G", "S", "B"]
  else if t = "resistor" || t = "capacitor" then ["P", "N"]
  else if t = "vsource" || t = "isource" then ["pos", "neg"]
  else if t = "vcvs" then ["pos", "neg", "ctrl_pos", "ctrl_neg"]
  else []

/-- Name qualification: `if prefix and prefix != "top"` compose
`prefix_name`. -/
def qualName (pre nm : String) : String :=
  if pre = "" then nm else if pre = "top" then nm else pre ++ "_" ++ nm

/-- Remove parenthesis characters (`.replace('(', '').replace(')', '')`). -/
def deparen (s : String) : String :=
  ⟨s.data.filter (fun c => c != '(' && c != ')')⟩

/-- One terminal binding. -/
structure Terminal where
  /-- Role name (the `name` key of the Python terminal dict). -/
  tname : String
  /-- Bound net identifier. -/
  net : String
deriving DecidableEq

/-- The sizing record built by `_parse_component_line` (`sizing`). -/
structure Sizing where
  l : PyQ
  nfin : PyQ
  r : PyQ
  c : PyQ
  dc : PyQ
  dc_param_name : Option String
  /-- Raw parameter strings (`params_raw`); only the web variant fills
  this. -/
  params_raw : List (String × String)
deriving DecidableEq

/-- A flattened component instance. -/
structure Component where
  cname : String
  ctype : String
  terminals : List Terminal
  sizing : Sizing
deriving DecidableEq

/-- Python `a or b` on floats: `a` when truthy (non-zero), else `b`. -/
def pyOr (a b : PyQ) : PyQ := if a.isZero then b else a

/-- `comp_params.get(k, 0)`. -/
def getPV (k : String) (m : List (String × PVal)) : PVal :=
  (alook k m).getD (.q 0)

/-- Names eligible for the symbolic-dc special case. -/
def vSpecialName (nm : String) : Bool :=
  nm = "V0" || nm = "V1" || lstarts "V_V" nm || nm = "VN" || nm = "VP2" || nm = "VN2"

/-- The five numeric sizing fields with their fallback chains. -/
def baseSizing (withExp : Bool) (scope : List (String × PyQ))
    (cp : List (String × PVal)) (raw : List (String × String)) : Sizing :=
  let pv := fun k => parse_value withExp (some scope) (getPV k cp)
  { l := pv "l"
    nfin := pyOr (pv "nfin") (pv "w")
    r := pyOr (pv "nR") (pv "r")
    c := pyOr (pv "nC") (pv "c")
    dc := pv "dc"
    dc_param_name := none
    params_raw := raw }

/-- The symbolic-dc special case: for hard-coded source names of type
`vsource`, capture the `\w` token after `dc=` and override `dc` with its
scope value when present. -/
def applyDcSpecial (scope : List (String × PyQ)) (nm tf cpStr : String)
    (sz : Sizing) : Sizing :=
  if vSpecialName nm && (tf = "vsource") then
    match dcSearch cpStr with
    | some pn =>
      { sz with dc_param_name := some pn, dc := (alook pn scope).getD sz.dc }
    | none => sz
  else sz

/-- Positional terminal assignment: one terminal per role name while net
tokens remain (`for i, tn in enumerate(t_names): if i < len(mapped_nets)`). -/
def mkTerminals (tf : String) (nets : List String) : List Terminal :=
  ((termNames tf).zip nets).map (fun p => { tname := p.1, net := p.2 })

/-- Net token extraction: join the tokens before the type keyword, drop
parentheses, strip, re-split, and remap through the port map
(`port_map.get(n, n)`). -/
def netsOf (pm : List (String × String)) (parts : List String) (ti : ℕ) :
    List String :=
  (wsplit (pyStrip (deparen (joinSpace ((parts.take ti).drop 1))))).map
    (fun n => (alook n pm).getD n)

/-- `_parse_component_line` of the conv variant
(`src/conversion_scripts/net_to_graph.py`). -/
def parseCompConv (scope : List (String × PyQ)) (pm : List (String × String))
    (pre : String) (line : String) : Option Component :=
  let cleaned := pyStrip ⟨line.data.takeWhile (fun c => c != '*')⟩
  match wsplit cleaned with
  | [] => none
  | p0 :: restTokens =>
    let parts := p0 :: restTokens
    match findTypeIdx 0 parts with
    | none => none
    | some (ti, tf) =>
      let nm := qualName pre p0
      let netsL := netsOf pm parts ti
      let cpStr := joinSpace (parts.drop (ti + 1))
      let cp : List (String × PVal) :=
        (dictOf (kvFindall cpStr)).map (fun kv => (kv.1, .s kv.2))
      let sz := applyDcSpecial scope nm tf cpStr (baseSizing false scope cp [])
      some { cname := nm, ctype := tf, terminals := mkTerminals tf netsL,
             sizing := sz }

/-- Does a token open a `key=` assignment (`^[a-zA-Z_]\w*=`)? -/
def tokIsKV (tok : String) : Bool :=
  match tok.data with
  | [] => false
  | c :: rest =>
    if c.isAlpha || c = '_' then
      match rest.drop (rest.takeWhile wChar).length with
      | '=' :: _ => true
      | _ => false
    else false

/-- Python `token.split('=', 1)` (called only when `=` is present). -/
def splitEq1 (tok : String) : String × String :=
  let k := tok.data.takeWhile (fun c => c != '=')
  ((⟨k⟩ : String), (⟨tok.data.drop (k.length + 1)⟩ : String))

/-- The raw-parameter accumulation loop of the web variant: a `key=` token
opens a key; following non-key tokens extend its (space-joined) value. -/
def rawScanAux : List String → Option String → List String →
    List (String × String) → List (String × String)
  | [], cur, acc, m =>
    match cur with
    | some k => dinsert k (joinSpace acc) m
    | none => m
  | tok :: rest, cur, acc, m =>
    if tokIsKV tok then
      let m2 :=
        match cur with
        | some k => dinsert k (joinSpace acc) m
        | none => m
      let kv := splitEq1 tok
      rawScanAux rest (some kv.1) (if kv.2 = "" then [] else [kv.2]) m2
    else
      match cur with
      | some _ => rawScanAux rest cur (acc ++ [tok]) m
      | none => rawScanAux rest none acc m

/-- `raw_params` of the web variant for the parameter-span tokens. -/
def rawParamsOf (toks : List String) : List (String × String) :=
  rawScanAux toks none [] []

/-- The web variant keeps for numeric use only raw values fully matching
`^([\w\.\+-e]+)$`. -/
def webCompParams (raw : List (String × String)) : List (String × PVal) :=
  raw.foldl
    (fun m kv =>
      if kv.2 ≠ "" && kv.2.data.all vChar then dinsert kv.1 (.s kv.2) m else m)
    []

/-- `find_positional_val`: first parameter-span token without `=` whose
parsed value is positive. -/
def findPosVal (scope : List (String × PyQ)) : List String → PyQ
  | [] => 0
  | t :: rest =>
    if t.data.contains '=' then findPosVal scope rest
    else
      let v := parse_value true (some scope) (.s t)
      if v.isPos then v else findPosVal scope rest

/-- `_parse_component_line` of the web variant
(`src/web_app/backend/net_to_graph.py`): skips source components, captures
raw parameters, and adds a positional fallback for resistor/capacitor
values. -/
def parseCompWeb (scope : List (String × PyQ)) (pm : List (String × String))
    (pre : String) (line : String) : Option Component :=
  let cleaned := pyStrip ⟨line.data.takeWhile (fun c => c != '*')⟩
  match wsplit cleaned with
  | [] => none
  | p0 :: restTokens =>
    let parts := p0 :: restTokens
    match findTypeIdx 0 parts with
    | none => none
    | some (ti, tf) =>
      if tf = "vsource" || tf = "isource" || tf = "vcvs" then none
      else
        let nm := qualName pre p0
        let netsL := netsOf pm parts ti
        let span := parts.drop (ti + 1)
        let cpStr := joinSpace span
        let raw := rawParamsOf span
        let cp0 := webCompParams raw
        let cp1 :=
          if tf = "resistor" && (alook "r" cp0).isNone && (alook "nR" cp0).isNone
          then
            let pv := findPosVal scope span
            if pv.isPos then dinsert "r" (.q pv) cp0 else cp0
          else cp0
        let cp :=
          if tf = "capacitor" && (alook "c" cp1).isNone && (alook "nC" cp1).isNone
          then
            let pv := findPosVal scope span
            if pv.isPos then dinsert "c" (.q pv) cp1 else cp1
          else cp1
        let sz := applyDcSpecial scope nm tf cpStr (baseSizing true scope cp raw)
        some { cname := nm, ctype := tf, terminals := mkTerminals tf netsL,
               sizing := sz }

/-! ## Flattening (`parse_file`, statement loop)

The input here is the list of top-level statement lines (the text after
subcircuit-definition blocks are removed) together with the extracted
subcircuit definitions and the global scope. -/

/-- A subcircuit definition (`subckts[name]`); the body is kept as its
statement lines. -/
structure Subckt where
  ports : List String
  body : List String
deriving DecidableEq

/-- Top-level skip test: blank lines, comments, and directives. -/
def skipTop (line : String) : Bool :=
  line = "" || lstarts "*" line || lstarts "simulator" line ||
  lstarts "global" line || lstarts "parameters" line || lstarts "include" line

/-- Body-line skip test inside a subcircuit body. -/
def skipBody (line : String) : Bool :=
  line = "" || lstarts "*" line || lstarts "." line

/-- The per-statement dispatch shared by both variants, parametrized by the
statement parser. -/
def lineCompsWith (parse : List (String × PyQ) → List (String × String) →
    String → String → Option Component)
    (subs : List (String × Subckt)) (scope : List (String × PyQ))
    (rawLine : String) : List Component :=
  let line := pyStrip rawLine
  if skipTop line then []
  else if lstarts "x" line then
    match wsplit line with
    | p0 :: p1 :: p2 :: rest =>
      let ps := p1 :: p2 :: rest
      let instPorts := ps.dropLast
      let subName := ps.getLast?.getD ""
      match alook subName subs with
      | none => []
      | some sub =>
        let pm := dictOf (sub.ports.zip instPorts)
        catMap
          (fun bl =>
            let b := pyStrip bl
            if skipBody b then [] else (parse scope pm p0 b).toList)
          sub.body
    | _ => []
  else (parse scope [] "top" line).toList

/-- Per-statement dispatch of the conv variant. -/
def lineCompsConv (subs : List (String × Subckt)) (scope : List (String × PyQ))
    (rawLine : String) : List Component :=
  lineCompsWith parseCompConv subs scope rawLine

/-- Per-statement dispatch of the web variant. -/
def lineCompsWeb (subs : List (String × Subckt)) (scope : List (String × PyQ))
    (rawLine : String) : List Component :=
  lineCompsWith parseCompWeb subs scope rawLine

/-- The conv flattening loop: every top-level line is dispatched; there is
no marker filter. -/
def flattenConv (subs : List (String × Subckt)) (scope : List (String × PyQ))
    (lines : List String) : List Component :=
  lines.foldl (fun acc l => acc ++ lineCompsConv subs scope l) []

/-- The web flattening loop: a state machine over the topology/testbench
markers; lines are dispatched only while inside a topology span. -/
def flattenWebAux (subs : List (String × Subckt)) (scope : List (String × PyQ)) :
    List String → Bool → List Component
  | [], _ => []
  | l0 :: rest, inTop =>
    let line := pyStrip l0
    if containsSub "*--- TOPOLOGY ---*" line then flattenWebAux subs scope rest true
    else if containsSub "*--- TESTBENCH ---*" line then
      flattenWebAux subs scope rest false
    else if inTop then
      lineCompsWeb subs scope line ++ flattenWebAux subs scope rest inTop
    else flattenWebAux subs scope rest inTop

/-- The web flattening loop, started outside any topology span. -/
def flattenWeb (subs : List (String × Subckt)) (scope : List (String × PyQ))
    (lines : List String) : List Component :=
  flattenWebAux subs scope lines false

/-! ## Graph building (`_build_hetero_data`, dict backend)

`nets = sorted(list(set(...)))` deduplicates the referenced nets and sorts
them by code point; `comp_idx`/`net_idx` are dict comprehensions mapping a
name to its last index. -/

/-- Code-point lexicographic order on char lists (Python string `<`). -/
def lexLt : List Char → List Char → Bool
  | [], [] => false
  | [], _ :: _ => true
  | _ :: _, [] => false
  | a :: as, b :: bs =>
    if a.toNat < b.toNat then true
    else if b.toNat < a.toNat then false
    else lexLt as bs

/-- Insertion into a sorted list. -/
def insSorted (x : String) : List String → List String
  | [] => [x]
  | y :: rest => if lexLt x.data y.data then x :: y :: rest else y :: insSorted x rest

/-- Insertion sort by code point (Python `sorted` on strings). -/
def sortStr : List String → List String
  | [] => []
  | x :: rest => insSorted x (sortStr rest)

/-- Every net referenced by any terminal, in encounter order. -/
def referencedNets (comps : List Component) : List String :=
  catMap (fun c => c.terminals.map Terminal.net) comps

/-- The graph produced by `_build_hetero_data` (the plain-dict backend,
which is the backend the exchange projection consumes field by field). -/
structure DictGraph where
  netNames : List String
  compNames : List String
  netFeat : List (List PyQ)
  compFeat : List (List PyQ)
  edgeIndex : List (ℕ × ℕ)
  edgeAttr : List (List PyQ)
  compDetails : List Sizing
  tempc : PyQ
  fetNum : PyQ
  filename : Option String
deriving DecidableEq

/-- `_build_hetero_data`: sorted deduplicated nets, per-net classification
feature, per-component type-and-sizing feature, one edge with a
terminal-role attribute per (component, terminal) pair, and metadata. -/
def buildGraph (filename : Option String) (scope : List (String × PyQ))
    (comps : List Component) : DictGraph :=
  let nets := sortStr (referencedNets comps).dedup
  let names := comps.map Component.cname
  { netNames := nets
    compNames := names
    netFeat := nets.map (fun n => [((netTypeCode n : ℕ) : PyQ)])
    compFeat := comps.map (fun c =>
      [(((alook c.ctype compTypeMap).getD 0 : ℕ) : PyQ),
       c.sizing.l, c.sizing.nfin, c.sizing.r, c.sizing.c, c.sizing.dc])
    edgeIndex := catMap (fun c => c.terminals.map (fun t =>
      ((lastIdx? c.cname names).getD 0, (lastIdx? t.net nets).getD 0))) comps
    edgeAttr := catMap (fun c => c.terminals.map (fun t =>
      [(((alook t.tname termMap).getD 0 : ℕ) : PyQ)])) comps
    compDetails := comps.map Component.sizing
    tempc := (alook "tempc" scope).getD 27
    fetNum := (alook "fet_num" scope).getD 0
    filename := filename }

/-! ## Exchange-format projection (`graph_to_json.reconstruct_circuit`) -/

/-- `COMP_TYPE_MAP` of `graph_to_json.py` (code to label). -/
def compTypeMapRev : List (ℤ × String) :=
  [(0, "nfet"), (1, "pfet"), (2, "resistor"), (3, "capacitor"),
   (4, "vsource"), (5, "isource"), (6, "vcvs")]

/-- `TERM_MAP` of `graph_to_json.py` (code to label). -/
def termMapRev : List (ℤ × String) :=
  [(0, "D"), (1, "G"), (2, "S"), (3, "B"), (4, "P"), (5, "N"),
   (6, "pos"), (7, "neg"), (8, "ctrl_pos"), (9, "ctrl_neg")]

/-- `mapping.get(int(v), f"unknown_{int(v)}")`. -/
def labelOfInt (mapping : List (ℤ × String)) (i : ℤ) : String :=
  (alook i mapping).getD ("unknown_" ++ toString i)

/-- `get_label` on a numeric value. -/
def getLabelNum (mapping : List (ℤ × String)) (q : PyQ) : String :=
  labelOfInt mapping q.trunc

/-- `get_label` on a feature list: singleton values decode directly,
longer lists try a one-hot index of `1`, falling back to the first
element; an empty list yields `"unknown"`. -/
def getLabelList (mapping : List (ℤ × String)) : List PyQ → String
  | [] => "unknown"
  | [x] => getLabelNum mapping x
  | x :: y :: rest =>
    match (x :: y :: rest).findIdx? (fun v => v = (1 : PyQ)) with
    | some i => labelOfInt mapping (i : ℤ)
    | none => getLabelNum mapping x

/-- `feat[0] if feat else None` fed to `get_label` (a `None` argument
reaches the final `return "unknown"`). -/
def subtypeOfFeat (feat : List PyQ) : String :=
  match feat with
  | [] => "unknown"
  | x :: _ => getLabelNum compTypeMapRev x

/-- A pairing signature: `(subtype, frozenset(sorted(raw_params.items())))`.
Sorting does not change the frozenset, which is exactly the finite set of
items. -/
abbrev PairSig := String × Finset (String × String)

/-- The pairing signature of component `i` of a graph. -/
def sigOf (g : DictGraph) (i : ℕ) : PairSig :=
  let feat := (g.compFeat.get? i).getD []
  let details := (g.compDetails.get? i).getD ⟨0, 0, 0, 0, 0, none, []⟩
  (subtypeOfFeat feat, details.params_raw.toFinset)

/-- All pairing signatures of a graph, in component order. -/
def sigsOf (g : DictGraph) : List PairSig :=
  (List.range g.compNames.length).map (sigOf g)

/-- The pair-identifier state machine of `reconstruct_circuit`: look the
signature up in the groups seen so far, else register it under the next
fresh identifier (`next_pair_id`, starting at 1). -/
def pairIdsAux [DecidableEq α] (groups : List (α × ℕ)) (nxt : ℕ) :
    List α → List ℕ
  | [] => []
  | s :: rest =>
    match alook s groups with
    | some k => k :: pairIdsAux groups nxt rest
    | none => nxt :: pairIdsAux (groups ++ [(s, nxt)]) (nxt + 1) rest

/-- Pair identifiers for a signature stream, in first-seen order from 1. -/
def pairIds [DecidableEq α] (l : List α) : List ℕ := pairIdsAux [] 1 l

/-- A node of the projected document: a component (with subtype and pair
identifier) or a net. -/
inductive NodeVal where
  | comp (subtype : String) (pairId : ℕ)
  | net
deriving DecidableEq

/-- A projected edge `{source, target, pin}`. -/
structure EdgeT where
  source : String
  target : String
  pin : String
deriving DecidableEq

/-- The projected document (`topology_id` and `directed` are constants in
the source and are omitted). -/
structure Projection where
  netlist : String
  nodes : List (String × NodeVal)
  edges : List EdgeT
deriving DecidableEq

/-- The edge loop of `reconstruct_circuit`: indices out of range are
skipped, `k` tracks the enumeration index used for the attribute list. -/
def recEdgesGo (g : DictGraph) : ℕ → List (ℕ × ℕ) → List EdgeT
  | _, [] => []
  | k, (ci, ni) :: rest =>
    if ci < g.compNames.length && ni < g.netNames.length then
      { source := (g.compNames.get? ci).getD "",
        target := (g.netNames.get? ni).getD "",
        pin := getLabelList termMapRev ((g.edgeAttr.get? k).getD []) } ::
        recEdgesGo g (k + 1) rest
    else recEdgesGo g (k + 1) rest

/-- `reconstruct_circuit` on the dict backend: component nodes keyed by
name (dict insertion), then net nodes merged on top (`{**components,
**nets}`), plus the projected edge list. -/
def reconstruct (g : DictGraph) : Projection :=
  let sigs := sigsOf g
  let ids := pairIds sigs
  let compNodes := (enumI 0 g.compNames).foldl
    (fun m p =>
      dinsert p.2
        (NodeVal.comp ((sigs.get? p.1).getD ("unknown", ∅)).1
          ((ids.get? p.1).getD 0)) m)
    []
  let nodes := g.netNames.foldl (fun m n => dinsert n NodeVal.net m) compNodes
  { netlist := g.filename.getD "unknown.scs"
    nodes := nodes
    edges := recEdgesGo g 0 g.edgeIndex }

/-! ## Upload service dispatch (`server.upload_file`)

The handler rejects filenames not ending in `.scs` and unparsable
`perf_specs` payloads with status 400, and wraps any exception from the
conversion in a status-500 response.  The conversion call is
`converter.parse_file(temp_file_path, perf_specs=specs_dict)`, while the
web variant signature is `parse_file(self, file_path)`; a keyword argument
that is not a parameter of the callee raises `TypeError`, so the
conversion step always raises. -/

/-- Parameter names of `NetlistToGraph.parse_file` in
`src/web_app/backend/net_to_graph.py`. -/
def webParseFileParamNames : List String := ["self", "file_path"]

/-- Keyword arguments used by the conversion call in `server.py`. -/
def serverConversionKeywords : List String := ["perf_specs"]

/-- Python call semantics: the call raises `TypeError` when some keyword is
not among the parameter names of the callee. -/
def serverConversionRaises : Bool :=
  !(serverConversionKeywords.all (fun k => webParseFileParamNames.contains k))

/-- `server.upload_file` dispatch, as status code and detail.  The
`perfSpecsParses` flag abstracts `json.loads` succeeding on the
`perf_specs` form field. -/
def upload_file (filename : String) (perfSpecsParses : Bool) : ℕ × String :=
  if !(lends ".scs" filename) then
    (400, "Invalid file type. Please upload a .scs file.")
  else if !perfSpecsParses then
    (400, "Invalid JSON format for perf_specs.")
  else if serverConversionRaises then
    (500, "Conversion failed: TypeError: parse_file got an unexpected keyword argument perf_specs")
  else (200, "ok")

/-! ## Specification-side characterizations used by the proofs -/

/-- First index of an element (0 if absent). -/
def fIdx [DecidableEq α] (s : α) : List α → ℕ
  | [] => 0
  | x :: rest => if x = s then 0 else fIdx s rest + 1

/-- Append an element unless already present. -/
def insNew [DecidableEq α] (acc : List α) (s : α) : List α :=
  if s ∈ acc then acc else acc ++ [s]

/-- The distinct elements of a list in first-occurrence order. -/
def firstOccs [DecidableEq α] (l : List α) : List α := l.foldl insNew []

/-- Pair each element with an identifier, starting at `k`. -/
def enumG (k : ℕ) : List α → List (α × ℕ)
  | [] => []
  | x :: rest => (x, k) :: enumG (k + 1) rest

/-- Keys of an association list. -/
def keysOf (m : List (κ × α)) : List κ := m.map Prod.fst

/-! ## Concrete inputs referenced by the claim theorems -/

/-- The all-zero sizing record (a statement with no parameters). -/
def szZero : Sizing := ⟨0, 0, 0, 0, 0, none, []⟩

/-- C1 example input. -/
def exC1 : String := "parameters a=2k\nparameters b=a"

/-- C2 example subcircuit table. -/
def subsC2 : List (String × Subckt) := [("sub1", ⟨["pa", "pb"], ["M1 pa pb nfet"]⟩)]

/-- A plain resistor statement line. -/
def lineR1 : String := "R1 a b resistor r=1k"

/-- A voltage-source statement line (C5). -/
def lineV : String := "V0 in 0 vsource dc=1"

/-- A component that shares its name with one of its nets (C9). -/
def cexComp : Component :=
  ⟨"R1", "resistor", [⟨"P", "x"⟩, ⟨"N", "R1"⟩], ⟨0, 0, 0, 0, 0, none, [("r", "1k")]⟩⟩

/-- A well-behaved single component (C9 witness). -/
def okComp : Component := ⟨"R1", "resistor", [⟨"P", "a"⟩, ⟨"N", "b"⟩], szZero⟩

/-- Web-pipeline input with two identical resistors (C8). -/
def lines8a : List String :=
  ["*--- TOPOLOGY ---*", "Ra n1 n2 resistor r=1k", "Rb n3 n4 resistor r=1k"]

/-- Web-pipeline input with two differing resistors (C8). -/
def lines8b : List String :=
  ["*--- TOPOLOGY ---*", "Ra n1 n2 resistor r=1k", "Rb n3 n4 resistor r=2k"]

/-- Graph of `lines8a`. -/
def g8a : DictGraph := buildGraph (some "t.scs") [] (flattenWeb [] [] lines8a)

/-- Graph of `lines8b`. -/
def g8b : DictGraph := buildGraph (some "t.scs") [] (flattenWeb [] [] lines8b)

/-- The signature of a resistor carrying raw parameter text `r=1k`. -/
def sigR1k : PairSig :=
  ("resistor", ([("r", "1k")] : List (String × String)).toFinset)

/-! ## Association-list lemmas -/

theorem alook_dinsert [DecidableEq κ] (m : List (κ × α)) (k k1 : κ) (v : α) :
    alook k (dinsert k1 v m) = if k1 = k then some v else alook k m := by
  induction m with
  | nil => simp [dinsert, alook]
  | cons p rest ih =>
    obtain ⟨k2, v2⟩ := p
    by_cases h21 : k2 = k1
    · subst h21
      by_cases h2k : k2 = k
      · subst h2k; simp [dinsert, alook]
      · simp [dinsert, alook, h2k]
    · by_cases h2k : k2 = k
      · subst h2k
        have h1k : k1 ≠ k2 := fun h => h21 h.symm
        simp [dinsert, alook, h21, h1k]
      · simp [dinsert, alook, h21, h2k, ih]

theorem alook_append_left [DecidableEq κ] {a : List (κ × α)} (b : List (κ × α))
    {k : κ} {v : α} (h : alook k a = some v) : alook k (a ++ b) = some v := by
  induction a with
  | nil => simp [alook] at h
  | cons p rest ih =>
    by_cases hpk : p.1 = k
    · simp [alook, hpk] at h ⊢; exact h
    · simp [alook, hpk] at h ⊢; exact ih h

theorem alook_append_right [DecidableEq κ] {a : List (κ × α)} (b : List (κ × α))
    {k : κ} (h : alook k a = none) : alook k (a ++ b) = alook k b := by
  induction a with
  | nil => simp
  | cons p rest ih =>
    by_cases hpk : p.1 = k
    · simp [alook, hpk] at h
    · simp [alook, hpk] at h ⊢; exact ih h

theorem keysOf_cons (p : κ × α) (m : List (κ × α)) :
    keysOf (p :: m) = p.1 :: keysOf m := rfl

theorem alook_none_of_notmem [DecidableEq κ] {m : List (κ × α)} {k : κ}
    (h : k ∉ keysOf m) : alook k m = none := by
  induction m with
  | nil => rfl
  | cons p rest ih =>
    simp only [keysOf_cons, List.mem_cons] at h
    push_neg at h
    have hne : ¬p.1 = k := fun hh => h.1 hh.symm
    simp [alook, hne, ih h.2]

theorem alook_isSome_of_mem [DecidableEq κ] {m : List (κ × α)} {k : κ}
    (h : k ∈ keysOf m) : ∃ v, alook k m = some v := by
  induction m with
  | nil => simp [keysOf] at h
  | cons p rest ih =>
    simp only [keysOf_cons, List.mem_cons] at h
    by_cases hpk : p.1 = k
    · exact ⟨p.2, by simp [alook, hpk]⟩
    · have hk : k ∈ keysOf rest := by
        rcases h with h | h
        · exact absurd h.symm hpk
        · exact h
      obtain ⟨v, hv⟩ := ih hk
      exact ⟨v, by simp [alook, hpk, hv]⟩

theorem alook_mem [DecidableEq κ] {m : List (κ × α)} {k : κ} {v : α}
    (h : alook k m = some v) : (k, v) ∈ m := by
  induction m with
  | nil => simp [alook] at h
  | cons p rest ih =>
    obtain ⟨pk, pv⟩ := p
    by_cases hpk : pk = k
    · simp [alook, hpk] at h
      subst hpk
      subst h
      exact List.mem_cons_self _ _
    · simp [alook, hpk] at h
      exact List.mem_cons_of_mem _ (ih h)

theorem dinsert_notmem [DecidableEq κ] {m : List (κ × α)} {k : κ} (v : α)
    (h : k ∉ keysOf m) : dinsert k v m = m ++ [(k, v)] := by
  induction m with
  | nil => rfl
  | cons p rest ih =>
    simp only [keysOf_cons, List.mem_cons] at h
    push_neg at h
    have hne : ¬p.1 = k := fun hh => h.1 hh.symm
    simp [dinsert, hne, ih h.2]

/-! ## Pair-identifier lemmas (C8) -/

theorem fIdx_append_mem [DecidableEq α] {s : α} {a : List α} (t : List α)
    (h : s ∈ a) : fIdx s (a ++ t) = fIdx s a := by
  induction a with
  | nil => simp at h
  | cons x rest ih =>
    by_cases hx : x = s
    · simp [fIdx, hx]
    · have : s ∈ rest := by
        rcases List.mem_cons.mp h with h1 | h1
        · exact absurd h1.symm hx
        · exact h1
      simp [fIdx, hx, ih this]

theorem fIdx_append_self [DecidableEq α] {s : α} {a : List α} (h : s ∉ a) :
    fIdx s (a ++ [s]) = a.length := by
  induction a with
  | nil => simp [fIdx]
  | cons x rest ih =>
    have hx : x ≠ s := fun hh => h (by simp [hh])
    simp [fIdx, hx, ih (fun hh => h (List.mem_cons_of_mem _ hh))]

theorem mem_insNew_of_mem [DecidableEq α] {t : α} {acc : List α} (s : α)
    (h : t ∈ acc) : t ∈ insNew acc s := by
  unfold insNew
  split
  · exact h
  · exact List.mem_append_left _ h

theorem mem_insNew_self [DecidableEq α] (acc : List α) (s : α) :
    s ∈ insNew acc s := by
  unfold insNew
  split
  · assumption
  · simp

theorem mem_foldl_insNew_mono [DecidableEq α] {t : α} (l : List α) :
    ∀ acc : List α, t ∈ acc → t ∈ l.foldl insNew acc := by
  induction l with
  | nil => intro acc h; exact h
  | cons x rest ih =>
    intro acc h
    exact ih (insNew acc x) (mem_insNew_of_mem x h)

theorem mem_foldl_insNew [DecidableEq α] {s : α} {l : List α} (acc : List α)
    (h : s ∈ l) : s ∈ l.foldl insNew acc := by
  induction l generalizing acc with
  | nil => simp at h
  | cons x rest ih =>
    rcases List.mem_cons.mp h with h1 | h1
    · subst h1
      exact mem_foldl_insNew_mono rest _ (mem_insNew_self acc s)
    · exact ih (insNew acc x) h1

theorem fIdx_foldl_insNew [DecidableEq α] {s : α} (l : List α) :
    ∀ acc : List α, s ∈ acc → fIdx s (l.foldl insNew acc) = fIdx s acc := by
  induction l with
  | nil => intro acc _; rfl
  | cons x rest ih =>
    intro acc h
    have hmem : s ∈ insNew acc x := mem_insNew_of_mem x h
    rw [List.foldl_cons, ih (insNew acc x) hmem]
    unfold insNew
    split
    · rfl
    · exact fIdx_append_mem _ h

theorem get?_fIdx [DecidableEq α] {s : α} {l : List α} (h : s ∈ l) :
    l.get? (fIdx s l) = some s := by
  induction l with
  | nil => simp at h
  | cons x rest ih =>
    by_cases hx : x = s
    · simp [fIdx, hx]
    · have hs : s ∈ rest := by
        rcases List.mem_cons.mp h with h1 | h1
        · exact absurd h1.symm hx
        · exact h1
      simp only [fIdx, if_neg hx]
      simpa using ih hs

theorem fIdx_inj [DecidableEq α] {a b : α} {l : List α} (ha : a ∈ l)
    (hb : b ∈ l) (h : fIdx a l = fIdx b l) : a = b := by
  have h1 := get?_fIdx ha
  have h2 := get?_fIdx hb
  rw [h, h2] at h1
  exact (Option.some_injective _ h1).symm

theorem alook_enumG [DecidableEq α] (occs : List α) :
    ∀ (k : ℕ) (s : α),
      alook s (enumG k occs) =
        if s ∈ occs then some (fIdx s occs + k) else none := by
  induction occs with
  | nil => intro k s; simp [enumG, alook]
  | cons x rest ih =>
    intro k s
    by_cases hx : x = s
    · simp [enumG, alook, hx, fIdx]
    · have hsx : ¬s = x := fun hh => hx hh.symm
      by_cases hs : s ∈ rest
      · simp [enumG, alook, hx, hs, hsx, ih (k + 1) s, fIdx]
        omega
      · simp [enumG, alook, hx, hs, hsx, ih (k + 1) s, fIdx]

theorem enumG_append (a b : List α) :
    ∀ k : ℕ, enumG k (a ++ b) = enumG k a ++ enumG (k + a.length) b := by
  induction a with
  | nil => intro k; simp [enumG]
  | cons x rest ih =>
    intro k
    simp [enumG, ih (k + 1)]
    have : k + 1 + rest.length = k + (rest.length + 1) := by omega
    rw [this]

theorem pairIdsAux_cons_found [DecidableEq α] {groups : List (α × ℕ)}
    {nxt k : ℕ} {s : α} (rest : List α) (h : alook s groups = some k) :
    pairIdsAux groups nxt (s :: rest) = k :: pairIdsAux groups nxt rest := by
  simp [pairIdsAux, h]

theorem pairIdsAux_cons_new [DecidableEq α] {groups : List (α × ℕ)}
    {nxt : ℕ} {s : α} (rest : List α) (h : alook s groups = none) :
    pairIdsAux groups nxt (s :: rest) =
      nxt :: pairIdsAux (groups ++ [(s, nxt)]) (nxt + 1) rest := by
  simp [pairIdsAux, h]

theorem pairIdsAux_eq_map [DecidableEq α] (l : List α) :
    ∀ occs : List α,
      pairIdsAux (enumG 1 occs) (occs.length + 1) l =
        l.map (fun s => fIdx s (List.foldl insNew occs l) + 1) := by
  induction l with
  | nil => intro occs; simp [pairIdsAux]
  | cons s rest ih =>
    intro occs
    by_cases hs : s ∈ occs
    · have hins : insNew occs s = occs := by simp [insNew, hs]
      have hfold : List.foldl insNew occs (s :: rest) =
          List.foldl insNew occs rest := by
        rw [List.foldl_cons, hins]
      have hlook : alook s (enumG 1 occs) = some (fIdx s occs + 1) := by
        rw [alook_enumG occs 1 s]; simp [hs]
      rw [pairIdsAux_cons_found rest hlook, List.map_cons, hfold, ih occs,
        fIdx_foldl_insNew rest occs hs]
    · have hins : insNew occs s = occs ++ [s] := by simp [insNew, hs]
      have hfold : List.foldl insNew occs (s :: rest) =
          List.foldl insNew (occs ++ [s]) rest := by
        rw [List.foldl_cons, hins]
      have hlook : alook s (enumG 1 occs) = none := by
        rw [alook_enumG occs 1 s]; simp [hs]
      have hgroups : enumG 1 occs ++ [(s, occs.length + 1)] =
          enumG 1 (occs ++ [s]) := by
        rw [enumG_append occs [s] 1]
        simp [enumG]
        omega
      have hlen2 : occs.length + 1 + 1 = (occs ++ [s]).length + 1 := by simp
      rw [pairIdsAux_cons_new rest hlook, List.map_cons, hfold, hgroups, hlen2,
        ih (occs ++ [s]),
        fIdx_foldl_insNew (s := s) rest (occs ++ [s]) (by simp),
        fIdx_append_self hs]

theorem pairIds_eq_map [DecidableEq α] (l : List α) :
    pairIds l = l.map (fun s => fIdx s (firstOccs l) + 1) := by
  have h := pairIdsAux_eq_map l []
  simpa [pairIds, enumG, firstOccs] using h

theorem pairIds_length [DecidableEq α] (l : List α) :
    (pairIds l).length = l.length := by
  rw [pairIds_eq_map]; simp

/-! ## Last-index lemmas (dict comprehensions over `enumerate`) -/

theorem lastIdx?_isSome {l : List String} {n : String} (h : n ∈ l) :
    ∃ v, lastIdx? n l = some v := by
  induction l with
  | nil => simp at h
  | cons x rest ih =>
    match hrest : lastIdx? n rest with
    | some w => exact ⟨w + 1, by simp [lastIdx?, hrest]⟩
    | none =>
      have hx : x = n := by
        rcases List.mem_cons.mp h with h1 | h1
        · exact h1.symm
        · obtain ⟨w, hw⟩ := ih h1
          rw [hw] at hrest
          cases hrest
      exact ⟨0, by simp [lastIdx?, hrest, hx]⟩

theorem lastIdx?_lt {l : List String} {n : String} {v : ℕ}
    (h : lastIdx? n l = some v) : v < l.length := by
  induction l generalizing v with
  | nil => simp [lastIdx?] at h
  | cons x rest ih =>
    match hrest : lastIdx? n rest with
    | some w =>
      simp [lastIdx?, hrest] at h
      have := ih hrest
      simp
      omega
    | none =>
      by_cases hx : x = n
      · simp [lastIdx?, hrest, hx] at h
        simp [← h]
      · simp [lastIdx?, hrest, hx] at h

theorem lastIdx?_get {l : List String} {n : String} {v : ℕ}
    (h : lastIdx? n l = some v) : l.get? v = some n := by
  induction l generalizing v with
  | nil => simp [lastIdx?] at h
  | cons x rest ih =>
    match hrest : lastIdx? n rest with
    | some w =>
      simp [lastIdx?, hrest] at h
      rw [← h]
      simpa using ih hrest
    | none =>
      by_cases hx : x = n
      · simp [lastIdx?, hrest, hx] at h
        simp [← h, hx]
      · simp [lastIdx?, hrest, hx] at h

/-! ## Enumeration lemmas -/

theorem enumI_length (l : List α) : ∀ k, (enumI k l).length = l.length := by
  induction l with
  | nil => intro k; rfl
  | cons x rest ih => intro k; simp [enumI, ih (k + 1)]

theorem enumI_get? (l : List α) :
    ∀ (k j : ℕ), (enumI k l).get? j = (l.get? j).map (fun a => (k + j, a)) := by
  induction l with
  | nil => intro k j; simp [enumI]
  | cons x rest ih =>
    intro k j
    match j with
    | 0 => simp [enumI]
    | j + 1 =>
      simp only [enumI]
      have := ih (k + 1) j
      simp only [List.get?] at this ⊢
      rw [this]
      have harith : k + 1 + j = k + (j + 1) := by omega
      rw [harith]

theorem keysOf_map_enumI (g : ℕ × String → α) (l : List String) :
    ∀ k, keysOf ((enumI k l).map (fun p => (p.2, g p))) = l := by
  induction l with
  | nil => intro k; rfl
  | cons x rest ih => intro k; simp [enumI, keysOf] at ih ⊢; exact ih (k + 1)

/-! ## Fold-insertion lemmas (dict building) -/

theorem foldl_dinsert_append [DecidableEq κ] (entries : List (κ × α)) :
    ∀ m : List (κ × α), (keysOf entries).Nodup →
      (∀ k ∈ keysOf entries, k ∉ keysOf m) →
      entries.foldl (fun acc p => dinsert p.1 p.2 acc) m = m ++ entries := by
  induction entries with
  | nil => intro m _ _; simp
  | cons p rest ih =>
    intro m hnd hfresh
    simp only [keysOf_cons, List.nodup_cons] at hnd
    have hp : p.1 ∉ keysOf m := hfresh p.1 (by simp [keysOf_cons])
    have hstep : dinsert p.1 p.2 m = m ++ [p] := by
      have := dinsert_notmem p.2 hp
      simpa using this
    rw [List.foldl_cons, hstep]
    have hfresh2 : ∀ k ∈ keysOf rest, k ∉ keysOf (m ++ [p]) := by
      intro k hk hmem
      have hkeys : keysOf (m ++ [p]) = keysOf m ++ [p.1] := by simp [keysOf]
      rw [hkeys] at hmem
      rcases List.mem_append.mp hmem with h1 | h1
      · exact hfresh k (by simp [keysOf_cons, hk]) h1
      · have hkp : k = p.1 := by simpa using h1
        exact hnd.1 (hkp ▸ hk)
    rw [ih (m ++ [p]) hnd.2 hfresh2]
    simp

theorem alook_foldl_dinsert [DecidableEq κ] (f : β → α) :
    ∀ (l : List (κ × β)) (m : List (κ × α)) (k : κ) (q : α),
      alook k (l.foldl (fun acc kv => dinsert kv.1 (f kv.2) acc) m) = some q →
      (∃ raw, (k, raw) ∈ l ∧ q = f raw) ∨ alook k m = some q := by
  intro l
  induction l with
  | nil => intro m k q h; exact Or.inr h
  | cons kv rest ih =>
    intro m k q h
    rw [List.foldl_cons] at h
    rcases ih (dinsert kv.1 (f kv.2) m) k q h with h1 | h1
    · obtain ⟨raw, hraw, hq⟩ := h1
      exact Or.inl ⟨raw, List.mem_cons_of_mem _ hraw, hq⟩
    · rw [alook_dinsert] at h1
      by_cases hk : kv.1 = k
      · simp [hk] at h1
        refine Or.inl ⟨kv.2, ?_, h1.symm⟩
        have : kv = (k, kv.2) := by
          rw [← hk]
        rw [← this]
        exact List.mem_cons_self _ _
      · simp [hk] at h1
        exact Or.inr h1

/-! ## Sorting and deduplication lemmas -/

theorem insSorted_perm (x : String) (l : List String) :
    List.Perm (insSorted x l) (x :: l) := by
  induction l with
  | nil => exact List.Perm.refl _
  | cons y rest ih =>
    unfold insSorted
    split
    · exact List.Perm.refl _
    · exact (List.Perm.cons y ih).trans (List.Perm.swap x y rest)

theorem sortStr_perm (l : List String) : List.Perm (sortStr l) l := by
  induction l with
  | nil => exact List.Perm.refl _
  | cons x rest ih =>
    exact (insSorted_perm x (sortStr rest)).trans (List.Perm.cons x ih)

theorem sortStr_dedup_nodup (l : List String) : (sortStr l.dedup).Nodup :=
  ((sortStr_perm l.dedup).nodup_iff).mpr (List.nodup_dedup l)

theorem mem_sortStr_dedup {l : List String} {n : String} :
    n ∈ sortStr l.dedup ↔ n ∈ l := by
  rw [(sortStr_perm l.dedup).mem_iff, List.mem_dedup]

/-! ## Flattening lemmas -/

theorem foldl_append_eq_catMap (f : α → List β) (lines : List α) :
    ∀ acc : List β,
      lines.foldl (fun a l => a ++ f l) acc = acc ++ catMap f lines := by
  induction lines with
  | nil => intro acc; simp [catMap]
  | cons x rest ih => intro acc; simp [catMap, ih (acc ++ f x)]

theorem flattenConv_eq_catMap (subs : List (String × Subckt))
    (sc : List (String × PyQ)) (lines : List String) :
    flattenConv subs sc lines = catMap (lineCompsConv subs sc) lines := by
  unfold flattenConv
  simpa using foldl_append_eq_catMap (lineCompsConv subs sc) lines []

theorem flattenWebAux_no_marker (subs : List (String × Subckt))
    (sc : List (String × PyQ)) (lines : List String)
    (h : ∀ l ∈ lines, containsSub "*--- TOPOLOGY ---*" (pyStrip l) = false) :
    flattenWebAux subs sc lines false = [] := by
  induction lines with
  | nil => rfl
  | cons l0 rest ih =>
    have h0 := h l0 (by simp)
    have hrest : ∀ l ∈ rest, containsSub "*--- TOPOLOGY ---*" (pyStrip l) = false :=
      fun l hl => h l (List.mem_cons_of_mem _ hl)
    unfold flattenWebAux
    simp [h0, ih hrest]

/-! ## Statement-parser lemmas -/

theorem findTypeIdx_eq_none_iff (l : List String) :
    ∀ i, findTypeIdx i l = none ↔ ∀ t ∈ l, t ∉ compTypeKeys := by
  induction l with
  | nil => intro i; simp [findTypeIdx]
  | cons x rest ih =>
    intro i
    by_cases hx : x ∈ compTypeKeys
    · simp [findTypeIdx, hx]
    · simp [findTypeIdx, hx, ih (i + 1)]

theorem findTypeIdx_some_mem {l : List String} {i j : ℕ} {t : String}
    (h : findTypeIdx i l = some (j, t)) : t ∈ l ∧ t ∈ compTypeKeys := by
  induction l generalizing i with
  | nil => simp [findTypeIdx] at h
  | cons x rest ih =>
    by_cases hx : x ∈ compTypeKeys
    · simp [findTypeIdx, hx] at h
      obtain ⟨-, hxt⟩ := h
      subst hxt
      exact ⟨by simp, hx⟩
    · simp [findTypeIdx, hx] at h
      obtain ⟨hmem, hc⟩ := ih h
      exact ⟨List.mem_cons_of_mem _ hmem, hc⟩

theorem wsplitAux_ne_nil (l : List Char) :
    ∀ acc : List Char, acc ≠ [] → wsplitAux l acc ≠ [] := by
  induction l with
  | nil =>
    intro acc hacc
    simp [wsplitAux, List.isEmpty_iff, hacc]
  | cons c rest ih =>
    intro acc hacc
    unfold wsplitAux
    split
    · simp [List.isEmpty_iff, hacc]
    · exact ih (c :: acc) (by simp)

theorem dropWhile_head_false (p : Char → Bool) :
    ∀ {l : List Char} {c : Char} {t : List Char},
      l.dropWhile p = c :: t → p c = false := by
  intro l
  induction l with
  | nil => intro c t h; simp [List.dropWhile] at h
  | cons x rest ih =>
    intro c t h
    by_cases hx : p x
    · rw [List.dropWhile_cons_of_pos hx] at h
      exact ih h
    · rw [List.dropWhile_cons_of_neg hx] at h
      cases h
      exact Bool.eq_false_iff.mpr hx

theorem wsplit_strip_ne_nil {s : String} (h : pyStrip s ≠ "") :
    wsplit (pyStrip s) ≠ [] := by
  have hdata : (pyStrip s).data = stripChars s.data := rfl
  match hsc : stripChars s.data with
  | [] =>
    exfalso
    apply h
    show (⟨stripChars s.data⟩ : String) = ""
    rw [hsc]
  | c :: t =>
    have hc : pySpace c = false := by
      have hd : (s.data.reverse.dropWhile pySpace).reverse.dropWhile pySpace
          = c :: t := hsc
      exact dropWhile_head_false pySpace hd
    show wsplitAux (pyStrip s).data [] ≠ []
    rw [hdata, hsc]
    have hne := wsplitAux_ne_nil t [c] (by simp)
    simpa [wsplitAux, hc] using hne

/-! ## Builder and projection lemmas -/

theorem mem_catMap {f : α → List β} {x : β} {l : List α} :
    x ∈ catMap f l ↔ ∃ a ∈ l, x ∈ f a := by
  induction l with
  | nil => simp [catMap]
  | cons a rest ih => simp [catMap, List.mem_append, ih]

theorem keysOf_map_self (l : List String) (f : String → α) :
    keysOf (l.map (fun n => (n, f n))) = l := by
  induction l with
  | nil => rfl
  | cons x rest ih => simp [keysOf] at ih ⊢; exact ih

theorem alook_map_const (l : List String) (v : α) {n : String} (h : n ∈ l) :
    alook n (l.map (fun x => (x, v))) = some v := by
  induction l with
  | nil => simp at h
  | cons x rest ih =>
    by_cases hx : x = n
    · simp [alook, hx]
    · have hn : n ∈ rest := by
        rcases List.mem_cons.mp h with h1 | h1
        · exact absurd h1.symm hx
        · exact h1
      simp [alook, hx, ih hn]

theorem buildGraph_compNames (fn : Option String) (sc : List (String × PyQ))
    (comps : List Component) :
    (buildGraph fn sc comps).compNames = comps.map Component.cname := rfl

theorem buildGraph_netNames (fn : Option String) (sc : List (String × PyQ))
    (comps : List Component) :
    (buildGraph fn sc comps).netNames = sortStr (referencedNets comps).dedup := rfl

theorem buildGraph_edgeIndex (fn : Option String) (sc : List (String × PyQ))
    (comps : List Component) :
    (buildGraph fn sc comps).edgeIndex =
      catMap (fun c => c.terminals.map (fun t =>
        ((lastIdx? c.cname (comps.map Component.cname)).getD 0,
         (lastIdx? t.net (sortStr (referencedNets comps).dedup)).getD 0))) comps := rfl

theorem buildGraph_netNames_nodup (fn : Option String) (sc : List (String × PyQ))
    (comps : List Component) : (buildGraph fn sc comps).netNames.Nodup := by
  rw [buildGraph_netNames]
  exact sortStr_dedup_nodup _

theorem buildGraph_netNames_mem (fn : Option String) (sc : List (String × PyQ))
    (comps : List Component) (n : String) :
    n ∈ (buildGraph fn sc comps).netNames ↔ n ∈ referencedNets comps := by
  rw [buildGraph_netNames]
  exact mem_sortStr_dedup

theorem buildGraph_edge_bounds (fn : Option String) (sc : List (String × PyQ))
    (comps : List Component) :
    ∀ p ∈ (buildGraph fn sc comps).edgeIndex,
      p.1 < (buildGraph fn sc comps).compNames.length ∧
      p.2 < (buildGraph fn sc comps).netNames.length := by
  intro p hp
  rw [buildGraph_edgeIndex, mem_catMap] at hp
  obtain ⟨c, hc, hp2⟩ := hp
  rw [List.mem_map] at hp2
  obtain ⟨t, ht, hpt⟩ := hp2
  subst hpt
  constructor
  · have hmem : c.cname ∈ comps.map Component.cname := List.mem_map_of_mem _ hc
    obtain ⟨v, hv⟩ := lastIdx?_isSome hmem
    rw [buildGraph_compNames]
    simpa [hv] using lastIdx?_lt hv
  · have hmem : t.net ∈ referencedNets comps := by
      rw [show referencedNets comps =
        catMap (fun c => c.terminals.map Terminal.net) comps from rfl, mem_catMap]
      exact ⟨c, hc, List.mem_map_of_mem _ ht⟩
    have hmem2 : t.net ∈ sortStr (referencedNets comps).dedup :=
      mem_sortStr_dedup.mpr hmem
    obtain ⟨v, hv⟩ := lastIdx?_isSome hmem2
    rw [buildGraph_netNames]
    simpa [hv] using lastIdx?_lt hv

theorem recEdgesGo_map (g : DictGraph) :
    ∀ (es : List (ℕ × ℕ)) (k : ℕ),
      (∀ p ∈ es, p.1 < g.compNames.length ∧ p.2 < g.netNames.length) →
      recEdgesGo g k es = (enumI k es).map (fun q =>
        { source := (g.compNames.get? q.2.1).getD ""
          target := (g.netNames.get? q.2.2).getD ""
          pin := getLabelList termMapRev ((g.edgeAttr.get? q.1).getD []) }) := by
  intro es
  induction es with
  | nil => intro k _; rfl
  | cons p rest ih =>
    intro k hb
    obtain ⟨ci, ni⟩ := p
    have hp := hb (ci, ni) (by simp)
    have hrest : ∀ p ∈ rest, p.1 < g.compNames.length ∧ p.2 < g.netNames.length :=
      fun p hp2 => hb p (List.mem_cons_of_mem _ hp2)
    unfold recEdgesGo
    simp [hp.1, hp.2, enumI, ih (k + 1) hrest]

theorem reconstruct_nodes_eq (g : DictGraph) (h1 : g.compNames.Nodup)
    (h3 : g.netNames.Nodup) (h2 : ∀ n ∈ g.netNames, n ∉ g.compNames) :
    (reconstruct g).nodes =
      (enumI 0 g.compNames).map (fun p =>
        (p.2, NodeVal.comp (((sigsOf g).get? p.1).getD ("unknown", ∅)).1
          (((pairIds (sigsOf g)).get? p.1).getD 0)))
      ++ g.netNames.map (fun n => (n, NodeVal.net)) := by
  have hcomp : (reconstruct g).nodes =
      g.netNames.foldl (fun m n => dinsert n NodeVal.net m)
        ((enumI 0 g.compNames).foldl
          (fun m p =>
            dinsert p.2
              (NodeVal.comp (((sigsOf g).get? p.1).getD ("unknown", ∅)).1
                (((pairIds (sigsOf g)).get? p.1).getD 0)) m) []) := rfl
  rw [hcomp]
  set entries := (enumI 0 g.compNames).map (fun p =>
    (p.2, NodeVal.comp (((sigsOf g).get? p.1).getD ("unknown", ∅)).1
      (((pairIds (sigsOf g)).get? p.1).getD 0))) with hentries
  have hkeys : keysOf entries = g.compNames := by
    rw [hentries]
    exact keysOf_map_enumI _ _ 0
  have hfold1 : (enumI 0 g.compNames).foldl
      (fun m p =>
        dinsert p.2
          (NodeVal.comp (((sigsOf g).get? p.1).getD ("unknown", ∅)).1
            (((pairIds (sigsOf g)).get? p.1).getD 0)) m) [] =
      entries.foldl (fun m q => dinsert q.1 q.2 m) [] := by
    rw [hentries, List.foldl_map]
  have hcompN : entries.foldl (fun m q => dinsert q.1 q.2 m) [] = entries := by
    have := foldl_dinsert_append entries [] (by rw [hkeys]; exact h1)
      (by intro k _ hk; simp [keysOf] at hk)
    simpa using this
  rw [hfold1, hcompN]
  set netEntries := g.netNames.map (fun n => (n, NodeVal.net)) with hnet
  have hknet : keysOf netEntries = g.netNames := by
    rw [hnet]; exact keysOf_map_self _ _
  have hfold2 : g.netNames.foldl (fun m n => dinsert n NodeVal.net m) entries =
      netEntries.foldl (fun m q => dinsert q.1 q.2 m) entries := by
    rw [hnet, List.foldl_map]
  rw [hfold2]
  exact foldl_dinsert_append netEntries entries
    (by rw [hknet]; exact h3)
    (by
      intro k hk
      rw [hknet] at hk
      rw [hkeys]
      exact h2 k hk)

/-! ## Claim C1 -/

/-- C1 counterexample: the claim says that after `parameters a=2k` then
`parameters b=a`, `b` resolves to the earlier parameter value 2000.0.  On
the code, the scope extraction calls `_parse_value` without the `params`
argument, so `b` resolves to 0.0 (in both variants), not 2000.0. -/
theorem claim_C1_counterexample :
    alook "b" (extractParams false exC1) = some 0 ∧
    alook "b" (extractParams true exC1) = some 0 ∧
    alook "a" (extractParams false exC1) = some 2000 ∧
    some (0 : PyQ) ≠ some (2000 : PyQ) :=
  ⟨by decide, by decide, by decide, by decide⟩

/-- C1 amended: extractGlobalScope scans `parameters` statements in textual
order and extracts `key=value` pairs, but resolves each value
without consulting the scope built so far: every stored value is exactly
the scope-free numeric parse of its raw token, and in particular after
`parameters a=2k` then `parameters b=a`, `b` resolves to 0.0. -/
theorem claim_C1_amended :
    (∀ (withExp : Bool) (content k : String) (q : PyQ),
        alook k (extractParams withExp content) = some q →
        ∃ raw, (k, raw) ∈ paramPairs content ∧
          q = parse_value withExp none (.s raw)) ∧
    alook "b" (extractParams false exC1) = some 0 ∧
    alook "b" (extractParams true exC1) = some 0 := by
  refine ⟨?_, by decide, by decide⟩
  intro we content k q h
  unfold extractParams at h
  rcases alook_foldl_dinsert (fun v => parse_value we none (.s v))
      (paramPairs content) [] k q h with h1 | h1
  · exact h1
  · simp [alook] at h1

/-- C1 witness: the amended theorem applied at the concrete two-line
input, key `b`, value 0. -/
theorem claim_C1_witness :
    ∃ raw, ("b", raw) ∈ paramPairs exC1 ∧
      (0 : PyQ) = parse_value false none (.s raw) :=
  claim_C1_amended.1 false exC1 "b" 0 (by decide)

/-! ## Claim C2 -/

/-- C2 counterexample: the claim names the flattened component `A_M1`, but
the code prefixes with the whole instance token `xA` (the leading `x` is
not stripped), producing `xA_M1`. -/
theorem claim_C2_counterexample :
    (flattenConv subsC2 [] ["xA p1 p2 sub1"]).map Component.cname = ["xA_M1"] ∧
    "xA_M1" ≠ "A_M1" :=
  ⟨by decide, by decide⟩

/-- C2 amended: flattening `xA p1 p2 sub1` against `sub1 (pa pb)` with body
`M1 pa pb nfet` yields exactly one component, named `xA_M1` (the prefix is
the full instance token including its leading `x`), with the first
terminal role bound to `p1` and the second to `p2`; and in general every
component produced under a true instance prefix has a name of the form
`<instance-token>_<base>`. -/
theorem claim_C2_amended :
    flattenConv subsC2 [] ["xA p1 p2 sub1"] =
      [{ cname := "xA_M1", ctype := "nfet",
         terminals := [⟨"D", "p1"⟩, ⟨"G", "p2"⟩], sizing := szZero }] ∧
    (∀ (sc : List (String × PyQ)) (pm : List (String × String))
        (inst line : String) (c : Component),
        inst ≠ "" → inst ≠ "top" → parseCompConv sc pm inst line = some c →
        ∃ base, c.cname = inst ++ "_" ++ base) := by
  refine ⟨by decide, ?_⟩
  intro sc pm inst line c h1 h2 hp
  simp only [parseCompConv] at hp
  rcases hparts : wsplit (pyStrip ⟨line.data.takeWhile (fun c => c != '*')⟩)
    with _ | ⟨p0, rest⟩
  · rw [hparts] at hp
    simp at hp
  · rw [hparts] at hp
    dsimp only at hp
    rcases hft : findTypeIdx 0 (p0 :: rest) with _ | ⟨i, tf⟩
    · rw [hft] at hp
      simp at hp
    · rw [hft] at hp
      injection hp with hp
      refine ⟨p0, ?_⟩
      rw [← hp]
      show qualName inst p0 = inst ++ "_" ++ p0
      unfold qualName
      rw [if_neg h1, if_neg h2]

/-- C2 witness: the general prefix property applied at the concrete
instance `xA` and body line `M1 pa pb nfet`. -/
theorem claim_C2_witness :
    ∃ base,
      Component.cname ⟨"xA_M1", "nfet", [⟨"D", "p1"⟩, ⟨"G", "p2"⟩], szZero⟩ =
        "xA" ++ "_" ++ base :=
  claim_C2_amended.2 [] [("pa", "p1"), ("pb", "p2")] "xA" "M1 pa pb nfet"
    ⟨"xA_M1", "nfet", [⟨"D", "p1"⟩, ⟨"G", "p2"⟩], szZero⟩
    (by decide) (by decide) (by decide)

/-! ## Claim C3 -/

/-- C3 counterexample: the claim says the net name `VDD!` classifies as
supply (code 0).  The code's supply pattern is a case-sensitive prefix
match, so `VDD!` classifies as internal (code 3); the exact
case-insensitive reading of the specification would give 0. -/
theorem claim_C3_counterexample :
    netTypeCode "VDD!" = 3 ∧ netTypeCodeSpec "VDD!" = 0 ∧ (3 : ℕ) ≠ 0 :=
  ⟨by decide, by decide, by decide⟩

/-- C3 amended: classifyNet evaluates in fixed priority order, but the
supply tier is a case-sensitive prefix match (not an exact match) against
`vdd!`, `gnd!`, `0`: a name classifies as supply exactly when it starts
with one of those literals; `vdd!` (and even `vdd!x`, `0out`) → supply,
`VDD!` → internal, `vbias_n` → bias (case-insensitive substring), bias
wins over signal, and `foo` → internal. -/
theorem claim_C3_amended :
    (∀ n : String, netTypeCode n = 0 ↔
      ("vdd!".data <+: n.data ∨ "gnd!".data <+: n.data ∨ "0".data <+: n.data)) ∧
    netTypeCode "vdd!" = 0 ∧ netTypeCode "vdd!x" = 0 ∧ netTypeCode "0out" = 0 ∧
    netTypeCode "VDD!" = 3 ∧ netTypeCode "vbias_n" = 1 ∧
    netTypeCode "VBIAS_vin" = 1 ∧ netTypeCode "foo" = 3 := by
  refine ⟨?_, by decide, by decide, by decide, by decide, by decide,
    by decide, by decide⟩
  intro n
  have hiff : supplyMatch n = true ↔
      ("vdd!".data <+: n.data ∨ "gnd!".data <+: n.data ∨ "0".data <+: n.data) := by
    simp only [supplyMatch, lstarts, Bool.or_eq_true, List.isPrefixOf_iff_prefix]
    exact or_assoc
  rw [← hiff]
  by_cases hsm : supplyMatch n = true
  · simp [netTypeCode, hsm]
  · simp only [netTypeCode, if_neg hsm]
    constructor
    · intro h0
      exfalso
      by_cases hbias : biasSearch n = true
      · simp [hbias] at h0
      · by_cases hsig : signalSearch n = true
        · simp [hbias, hsig] at h0
        · simp [hbias, hsig] at h0
    · intro hh
      exact absurd hh hsm

/-- C3 witness: the prefix characterization applied at `vdd!extra`. -/
theorem claim_C3_witness : netTypeCode "vdd!extra" = 0 :=
  (claim_C3_amended.1 "vdd!extra").mpr (Or.inl ⟨"extra".data, by decide⟩)

/-! ## Claim C4 -/

/-- C4 counterexample: the claim says that with no topology/testbench
markers in the input, no top-level statement is excluded.  In the web
variant the marker filter is always active and starts outside a topology
span, so a marker-free input produces no components at all, while the
conv variant parses the same statement. -/
theorem claim_C4_counterexample :
    flattenWeb [] [] [lineR1] = [] ∧ flattenConv [] [] [lineR1] ≠ [] :=
  ⟨by decide, by decide⟩

/-- C4 amended: in the conv variant there is no marker filter and every
top-level line is dispatched in order; in the web variant the filter is
always active, and an input containing no topology marker yields no
flattened components at all. -/
theorem claim_C4_amended :
    (∀ (subs : List (String × Subckt)) (sc : List (String × PyQ))
        (lines : List String),
        flattenConv subs sc lines = catMap (lineCompsConv subs sc) lines) ∧
    (∀ (subs : List (String × Subckt)) (sc : List (String × PyQ))
        (lines : List String),
        (∀ l ∈ lines, containsSub "*--- TOPOLOGY ---*" (pyStrip l) = false) →
        flattenWeb subs sc lines = []) :=
  ⟨fun subs sc lines => flattenConv_eq_catMap subs sc lines,
   fun subs sc lines h => flattenWebAux_no_marker subs sc lines h⟩

/-- C4 witness: the marker-free-input conclusion applied at a concrete
one-statement input. -/
theorem claim_C4_witness : flattenWeb [] [] [lineR1] = [] :=
  claim_C4_amended.2 [] [] [lineR1] (by decide)

/-! ## Claim C5 -/

/-- C5 helper: in the conv variant, a cleaned non-empty statement line
parses to `none` exactly when no token is a primitive type keyword. -/
theorem parseCompConv_none_iff (sc : List (String × PyQ))
    (pm : List (String × String)) (pre line : String)
    (h : pyStrip ⟨line.data.takeWhile (fun c => c != '*')⟩ ≠ "") :
    (parseCompConv sc pm pre line = none ↔
      ∀ t ∈ wsplit (pyStrip ⟨line.data.takeWhile (fun c => c != '*')⟩),
        t ∉ compTypeKeys) := by
  have hws := wsplit_strip_ne_nil h
  rcases hparts : wsplit (pyStrip ⟨line.data.takeWhile (fun c => c != '*')⟩)
    with _ | ⟨p0, rest⟩
  · exact absurd hparts hws
  · rcases hft : findTypeIdx 0 (p0 :: rest) with _ | ⟨i, tf⟩
    · apply iff_of_true
      · simp only [parseCompConv]
        rw [hparts]
        dsimp only
        rw [hft]
      · intro t ht
        exact (findTypeIdx_eq_none_iff (p0 :: rest) 0).mp hft t ht
    · apply iff_of_false
      · simp only [parseCompConv]
        rw [hparts]
        dsimp only
        rw [hft]
        simp
      · intro hall
        obtain ⟨hmem, hkey⟩ := findTypeIdx_some_mem hft
        exact hall tf hmem hkey

/-- C5 amended: in the conv variant, for every non-empty non-comment
statement line, the parser yields none exactly when no token matches a
primitive type keyword; in the web variant, statements of type vsource,
isource, or vcvs additionally yield none even though their keyword
matches, while the four non-source types still return instances. -/
theorem claim_C5_amended :
    (∀ (sc : List (String × PyQ)) (pm : List (String × String))
        (pre line : String),
        pyStrip ⟨line.data.takeWhile (fun c => c != '*')⟩ ≠ "" →
        (parseCompConv sc pm pre line = none ↔
          ∀ t ∈ wsplit (pyStrip ⟨line.data.takeWhile (fun c => c != '*')⟩),
            t ∉ compTypeKeys)) ∧
    parseCompWeb [] [] "top" lineV = none ∧
    parseCompConv [] [] "top" lineV ≠ none ∧
    parseCompWeb [] [] "top" "I7 a b isource dc=1" = none ∧
    parseCompWeb [] [] "top" "E1 a b c d vcvs gain=2" = none ∧
    parseCompWeb [] [] "top" "M1 a b c d nfet" ≠ none := by
  exact ⟨fun sc pm pre line h => parseCompConv_none_iff sc pm pre line h,
    by decide, by decide, by decide, by decide, by decide⟩

/-- C5 counterexample: a vsource statement whose tokens do contain the
keyword `vsource` (at index 3), yet the web parser returns none, against
the claim that any of the seven keywords yields an instance. -/
theorem claim_C5_counterexample :
    findTypeIdx 0 (wsplit (pyStrip
      ⟨lineV.data.takeWhile (fun c => c != '*')⟩)) = some (3, "vsource") ∧
    parseCompWeb [] [] "top" lineV = none :=
  ⟨by decide, by decide⟩

/-- C5 witness: the conv-variant characterization applied at a concrete
keyword-free statement line. -/
theorem claim_C5_witness :
    parseCompConv [] [] "top" "Q9 a b foo x=1" = none ↔
      ∀ t ∈ wsplit (pyStrip
        ⟨("Q9 a b foo x=1" : String).data.takeWhile (fun c => c != '*')⟩),
        t ∉ compTypeKeys :=
  claim_C5_amended.1 [] [] "top" "Q9 a b foo x=1" (by decide)

/-! ## Claim C6 -/

/-- C6 counterexample: the claim says resolveValue parses a leading signed
decimal optionally with an exponent; the conv variant has no exponent
group, so `1e3` resolves to 1.0 there while the web variant gives
1000.0. -/
theorem claim_C6_counterexample :
    parse_valueC none (.s "1e3") = 1 ∧ parse_valueW none (.s "1e3") = 1000 ∧
    (1 : PyQ) ≠ 1000 :=
  ⟨by decide, by decide, by decide⟩

/-- C6 amended: the web variant parses a leading signed decimal optionally
with an exponent; the conv variant parses no exponent (`1e3` → 1.0, the
`e` consumed as an unrecognized suffix).  In both variants a token found
in a non-empty scope resolves to its scope value, `10n` → 1e-8, `2.2k` →
2200.0, `5` → 5.0, `5x` → 5.0 (unrecognized suffix ignored), and a token
with no parsable numeric prefix → 0.0. -/
theorem claim_C6_amended :
    (∀ (we : Bool) (ps : List (String × PyQ)) (s : String) (q : PyQ),
        ps ≠ [] → s ≠ "" → alook (pyStrip s) ps = some q →
        parse_value we (some ps) (.s s) = q) ∧
    parse_valueC none (.s "10n") = 1 / 10 ^ 8 ∧
    parse_valueW none (.s "10n") = 1 / 10 ^ 8 ∧
    parse_valueC none (.s "2.2k") = 2200 ∧
    parse_valueW none (.s "2.2k") = 2200 ∧
    parse_valueC none (.s "5") = 5 ∧ parse_valueW none (.s "5") = 5 ∧
    parse_valueC none (.s "5x") = 5 ∧ parse_valueW none (.s "5x") = 5 ∧
    parse_valueC none (.s "1e3") = 1 ∧ parse_valueW none (.s "1e3") = 1000 ∧
    parse_valueC none (.s "abc") = 0 ∧ parse_valueW none (.s "abc") = 0 := by
  refine ⟨?_, by decide, by decide, by decide, by decide, by decide, by decide,
    by decide, by decide, by decide, by decide, by decide, by decide⟩
  intro we ps s q hps hs hlook
  have hne : ps.isEmpty = false := by
    cases ps
    · exact absurd rfl hps
    · rfl
  simp [parse_value, hs, hne, hlook]

/-- C6 witness: the scope-substitution conclusion applied at a concrete
one-entry scope. -/
theorem claim_C6_witness :
    parse_value false (some [("rload", 1000)]) (.s "rload") = 1000 :=
  claim_C6_amended.1 false [("rload", 1000)] "rload" 1000
    (by decide) (by decide) (by decide)

/-! ## Claim C7 -/

/-- C7: the dispatch of `upload_file`.  A wrong extension or unparsable
perf_specs payload yields status 400 as claimed, but a well-formed upload
never reaches a success response: the server passes the keyword argument
`perf_specs` to the web variant `parse_file`, whose signature has no such
parameter, so the conversion raises `TypeError` and the handler answers
500 — the claim's success path is dead code. -/
theorem claim_C7_code_bug :
    upload_file "amp.scs" true =
      (500, "Conversion failed: TypeError: parse_file got an unexpected keyword argument perf_specs") ∧
    upload_file "amp.txt" true =
      (400, "Invalid file type. Please upload a .scs file.") ∧
    upload_file "amp.scs" false =
      (400, "Invalid JSON format for perf_specs.") ∧
    serverConversionRaises = true ∧
    "perf_specs" ∉ webParseFileParamNames :=
  ⟨by decide, by decide, by decide, by decide, by decide⟩

/-! ## Claim C8 -/

/-- C8: in the pairing pass, two components receive the same pair
identifier if and only if their signature (subtype label, raw parameter
set as a finite set of key/value items) is identical; identifiers are
assigned in first-seen order starting at 1 (each identifier is one plus
the first-occurrence rank of its signature); and in the concrete web
pipeline, two resistors both carrying `r=1k` share identifier 1 while a
`r=1k` and a `r=2k` resistor receive identifiers 1 and 2. -/
theorem claim_C8_pairing :
    (∀ (l : List PairSig) (i j : ℕ), i < l.length → j < l.length →
        ((pairIds l).get? i = (pairIds l).get? j ↔ l.get? i = l.get? j)) ∧
    (∀ l : List PairSig,
        pairIds l = l.map (fun s => fIdx s (firstOccs l) + 1)) ∧
    alook "Ra" (reconstruct g8a).nodes = some (NodeVal.comp "resistor" 1) ∧
    alook "Rb" (reconstruct g8a).nodes = some (NodeVal.comp "resistor" 1) ∧
    alook "Ra" (reconstruct g8b).nodes = some (NodeVal.comp "resistor" 1) ∧
    alook "Rb" (reconstruct g8b).nodes = some (NodeVal.comp "resistor" 2) := by
  refine ⟨?_, fun l => pairIds_eq_map l, by decide, by decide, by decide,
    by decide⟩
  intro l i j hi hj
  rw [pairIds_eq_map]
  constructor
  · intro h
    rcases hgi : l.get? i with _ | a
    · rw [List.get?_eq_none] at hgi
      omega
    rcases hgj : l.get? j with _ | b
    · rw [List.get?_eq_none] at hgj
      omega
    rw [List.get?_map, List.get?_map, hgi, hgj] at h
    have hfe : fIdx a (firstOccs l) = fIdx b (firstOccs l) := by
      have h3 : some (fIdx a (firstOccs l) + 1) =
          some (fIdx b (firstOccs l) + 1) := h
      have := Option.some.inj h3
      omega
    have ha : a ∈ l := List.get?_mem hgi
    have hb : b ∈ l := List.get?_mem hgj
    have hab : a = b :=
      fIdx_inj (mem_foldl_insNew [] ha) (mem_foldl_insNew [] hb) hfe
    rw [hab]
  · intro h
    rw [List.get?_map, List.get?_map, h]

/-- C8 witness: the pairing characterization applied to the two-element
signature stream of two identical `r=1k` resistors. -/
theorem claim_C8_witness :
    (pairIds [sigR1k, sigR1k]).get? 0 = (pairIds [sigR1k, sigR1k]).get? 1 :=
  (claim_C8_pairing.1 [sigR1k, sigR1k] 0 1 (by decide) (by decide)).mpr
    (by decide)

/-! ## Claim C9 -/

/-- C9 counterexample: the claim says every component identifier appears in
the node map as a component node.  For a component named `R1` with a
terminal bound to a net also named `R1`, the net map overwrites the
component entry in `{**components, **nets}`, so the projection contains
only NET nodes and the component node is lost. -/
theorem claim_C9_counterexample :
    (reconstruct (buildGraph none [] [cexComp])).nodes =
      [("R1", NodeVal.net), ("x", NodeVal.net)] ∧
    (∀ p ∈ (reconstruct (buildGraph none [] [cexComp])).nodes,
        p.2 = NodeVal.net) :=
  ⟨by decide, by decide⟩

/-- C9 amended: for every builder graph whose component names are pairwise
distinct and disjoint from its net names, the projection's node map keys
are exactly the component names followed by the net names (each exactly
once), every component name maps to a component node (with subtype and
pair identifier) and every net name to a NET node, and the projected edge
list carries exactly one `{source, target, pin}` triple per edge of the
source graph, in order, with source and target the names indexed by that
edge. -/
theorem claim_C9_amended :
    ∀ (fn : Option String) (sc : List (String × PyQ)) (comps : List Component),
      (comps.map Component.cname).Nodup →
      (∀ n ∈ (buildGraph fn sc comps).netNames, n ∉ comps.map Component.cname) →
      ((reconstruct (buildGraph fn sc comps)).nodes.map Prod.fst =
          (buildGraph fn sc comps).compNames ++ (buildGraph fn sc comps).netNames) ∧
      (∀ nm ∈ (buildGraph fn sc comps).compNames,
          ∃ st pid, alook nm (reconstruct (buildGraph fn sc comps)).nodes =
            some (NodeVal.comp st pid)) ∧
      (∀ n ∈ (buildGraph fn sc comps).netNames,
          alook n (reconstruct (buildGraph fn sc comps)).nodes =
            some NodeVal.net) ∧
      ((reconstruct (buildGraph fn sc comps)).edges.length =
          (buildGraph fn sc comps).edgeIndex.length) ∧
      (∀ (k ci ni : ℕ),
          (buildGraph fn sc comps).edgeIndex.get? k = some (ci, ni) →
          ∃ pin, (reconstruct (buildGraph fn sc comps)).edges.get? k =
            some ⟨((buildGraph fn sc comps).compNames.get? ci).getD "",
                  ((buildGraph fn sc comps).netNames.get? ni).getD "", pin⟩) := by
  intro fn sc comps h1 h2
  have hcn : (buildGraph fn sc comps).compNames = comps.map Component.cname :=
    buildGraph_compNames fn sc comps
  have h1g : (buildGraph fn sc comps).compNames.Nodup := by rw [hcn]; exact h1
  have h2g : ∀ n ∈ (buildGraph fn sc comps).netNames,
      n ∉ (buildGraph fn sc comps).compNames := by
    intro n hn
    rw [hcn]
    exact h2 n hn
  have h3g : (buildGraph fn sc comps).netNames.Nodup :=
    buildGraph_netNames_nodup fn sc comps
  have hnodes := reconstruct_nodes_eq (buildGraph fn sc comps) h1g h3g h2g
  refine ⟨?_, ?_, ?_, ?_, ?_⟩
  · rw [hnodes, List.map_append]
    congr 1
    · exact keysOf_map_enumI _ _ 0
    · exact keysOf_map_self _ _
  · intro nm hnm
    rw [hnodes]
    have hkA : nm ∈ keysOf ((enumI 0 (buildGraph fn sc comps).compNames).map
        (fun p => (p.2,
          NodeVal.comp
            (((sigsOf (buildGraph fn sc comps)).get? p.1).getD ("unknown", ∅)).1
            (((pairIds (sigsOf (buildGraph fn sc comps))).get? p.1).getD 0)))) := by
      rw [keysOf_map_enumI]
      exact hnm
    obtain ⟨v, hv⟩ := alook_isSome_of_mem hkA
    have hvmem := alook_mem hv
    rw [List.mem_map] at hvmem
    obtain ⟨p, hp, hpv⟩ := hvmem
    have hvshape : v = NodeVal.comp
        (((sigsOf (buildGraph fn sc comps)).get? p.1).getD ("unknown", ∅)).1
        (((pairIds (sigsOf (buildGraph fn sc comps))).get? p.1).getD 0) := by
      have := congrArg Prod.snd hpv
      simpa using this.symm
    exact ⟨_, _, by rw [alook_append_left _ hv, hvshape]⟩
  · intro n hn
    rw [hnodes]
    have hnA : alook n ((enumI 0 (buildGraph fn sc comps).compNames).map
        (fun p => (p.2,
          NodeVal.comp
            (((sigsOf (buildGraph fn sc comps)).get? p.1).getD ("unknown", ∅)).1
            (((pairIds (sigsOf (buildGraph fn sc comps))).get? p.1).getD 0)))) =
        none := by
      apply alook_none_of_notmem
      rw [keysOf_map_enumI]
      exact h2g n hn
    rw [alook_append_right _ hnA]
    exact alook_map_const _ _ hn
  · have hedges : (reconstruct (buildGraph fn sc comps)).edges =
        recEdgesGo (buildGraph fn sc comps) 0
          (buildGraph fn sc comps).edgeIndex := rfl
    rw [hedges, recEdgesGo_map _ _ 0 (buildGraph_edge_bounds fn sc comps),
      List.length_map, enumI_length]
  · intro k ci ni hk
    have hedges : (reconstruct (buildGraph fn sc comps)).edges =
        recEdgesGo (buildGraph fn sc comps) 0
          (buildGraph fn sc comps).edgeIndex := rfl
    rw [hedges, recEdgesGo_map _ _ 0 (buildGraph_edge_bounds fn sc comps)]
    refine ⟨getLabelList termMapRev
      (((buildGraph fn sc comps).edgeAttr.get? k).getD []), ?_⟩
    rw [List.get?_map, enumI_get?, hk]
    simp

/-- C9 witness: the node-map conclusion of the amended theorem applied to a
single well-named resistor. -/
theorem claim_C9_witness :
    (reconstruct (buildGraph none [] [okComp])).nodes.map Prod.fst =
      (buildGraph none [] [okComp]).compNames ++
        (buildGraph none [] [okComp]).netNames :=
  (claim_C9_amended none [] [okComp] (by decide) (by decide)).1

/-! ## Claim C10 -/

/-- C10 counterexample: the claim says no two emitted component names are
identical for any input.  An input repeating the top-level statement name
`R1` produces the component-name list `[R1, R1]`. -/
theorem claim_C10_counterexample :
    (buildGraph none [] (flattenConv [] [] [lineR1, lineR1])).compNames =
      ["R1", "R1"] ∧
    ¬ (buildGraph none [] (flattenConv [] [] [lineR1, lineR1])).compNames.Nodup :=
  ⟨by decide, by decide⟩

/-- C10 amended: for every input, the built graph's net-identifier list
contains no duplicates and contains a name exactly when some terminal
references it (hence, being duplicate-free, exactly once); component
names, however, are emitted in encounter order and need not be unique. -/
theorem claim_C10_amended :
    ∀ (subs : List (String × Subckt)) (sc : List (String × PyQ))
      (lines : List String) (fn : Option String),
      (buildGraph fn sc (flattenConv subs sc lines)).netNames.Nodup ∧
      (∀ n, n ∈ (buildGraph fn sc (flattenConv subs sc lines)).netNames ↔
        n ∈ referencedNets (flattenConv subs sc lines)) :=
  fun subs sc lines fn =>
    ⟨buildGraph_netNames_nodup fn sc _,
     fun n => buildGraph_netNames_mem fn sc _ n⟩

/-- C10 witness: net uniqueness on a concrete one-statement input. -/
theorem claim_C10_witness :
    (buildGraph none [] (flattenConv [] [] [lineR1])).netNames.Nodup :=
  (claim_C10_amended [] [] [lineR1] none).1

end Aspector
